import Mathlib

/-!
Verification of the descriptor-driven command dispatcher generated by
`define_commands!` (src/shell_macros/src/commandsgen/mod.rs).

Rust strings are modelled as lists of Unicode scalar values (`List Char`);
where the source manipulates byte indices (the hex-string decoder), the
UTF-8 byte structure is modelled explicitly through `Char.utf8Size`.
Rust panics (out-of-bounds indexing, slicing a string at a non-character
boundary) are modelled as explicit `crash` outcomes.
-/

namespace UShell

/-- A token: a slice of the input line (`&str` modelled as `List Char`). -/
abbrev Token := List Char

/-- Error enum `DispatchError` from the generated module.  The `expected`
payload of `WrongArity` is a `u8` in the source; it is stored here as the
`Nat` it denotes. -/
inductive DispatchError where
  | Empty
  | UnknownFunction
  | WrongArity (expected : Nat)
  | BadBool
  | BadChar
  | BadUnsigned
  | BadSigned
  | BadFloat
  | BadHexStr
deriving DecidableEq, Repr

/-- `is_space` from the source: ASCII space or tab. -/
def isSpace (c : Char) : Bool := c == ' ' || c == '\t'

/-- One scan of `tokenize` (source lines 694-723), fuelled: every loop
iteration consumes at least one character, so fuel `line.length + 1`
suffices.  The source writes tokens into a caller-supplied buffer and,
once the buffer is full, keeps scanning but silently drops further
tokens; that buffer bound is applied as a `take` by the dispatch
functions below. -/
def tokenizeGo : Nat → List Char → List Token
  | 0, _ => []
  | fuel + 1, l =>
    match l.dropWhile isSpace with
    | [] => []
    | c :: rest =>
      if c = '"' then
        -- Quoted token: content up to (not including) the next quote, then
        -- skip the closing quote and consume any trailing non-space run.
        (rest.takeWhile (fun x => x != '"')) ::
          tokenizeGo fuel
            (((rest.dropWhile (fun x => x != '"')).drop 1).dropWhile (fun x => !isSpace x))
      else
        -- Unquoted token: up to the next whitespace.
        ((c :: rest).takeWhile (fun x => !isSpace x)) ::
          tokenizeGo fuel ((c :: rest).dropWhile (fun x => !isSpace x))

/-- The full (unbounded) token sequence of a line. -/
def tokenizeCore (l : List Char) : List Token := tokenizeGo (l.length + 1) l

/-- `tokenize` with a buffer of capacity `cap`: at most `cap` tokens are
written; the source returns the `Empty` error when zero tokens were
produced. -/
def tokenize (l : List Char) (cap : Nat) : Except DispatchError (List Token) :=
  match (tokenizeCore l).take cap with
  | [] => .error .Empty
  | ts => .ok ts

/-- Digit value of a character: Rust `char::to_digit(radix)`. -/
def toDigit (radix : Nat) (c : Char) : Option Nat :=
  let d : Option Nat :=
    if '0' ≤ c ∧ c ≤ '9' then some (c.toNat - '0'.toNat)
    else if 'a' ≤ c ∧ c ≤ 'z' then some (c.toNat - 'a'.toNat + 10)
    else if 'A' ≤ c ∧ c ≤ 'Z' then some (c.toNat - 'A'.toNat + 10)
    else none
  match d with
  | some v => if v < radix then some v else none
  | none => none

/-- Accumulate digit characters left to right in the given radix. -/
def digitsVal (radix : Nat) : List Char → Nat → Option Nat
  | [], acc => some acc
  | c :: cs, acc =>
    match toDigit radix c with
    | some d => digitsVal radix cs (acc * radix + d)
    | none => none

/-- Rust `<uN>::from_str_radix`: optional leading plus sign, at least one
digit, every digit below the radix; Rust reports values that do not fit
the target type as an overflow error, modelled by the exclusive upper
bound `bound`. -/
def fromStrRadixU (radix bound : Nat) (s : List Char) : Option Nat :=
  match s with
  | [] => none
  | c :: cs =>
    let ds := if c = '+' then cs else c :: cs
    if ds = [] then none
    else
      match digitsVal radix ds 0 with
      | some v => if v < bound then some v else none
      | none => none

/-- Rust `<iN>::from_str_radix`: optional sign, digits, range check
against the target type's bounds `lo`/`hi`. -/
def fromStrRadixI (radix : Nat) (lo hi : Int) (s : List Char) : Option Int :=
  match s with
  | [] => none
  | c :: cs =>
    let p : Bool × List Char :=
      if c = '+' then (false, cs) else if c = '-' then (true, cs) else (false, c :: cs)
    if p.2 = [] then none
    else
      match digitsVal radix p.2 0 with
      | some v =>
        let value : Int := if p.1 then -(v : Int) else (v : Int)
        if lo ≤ value ∧ value ≤ hi then some value else none
      | none => none

/-- Whitespace removed by Rust `str::trim` (restricted here to the ASCII
whitespace characters; no registered token format involves the exotic
Unicode whitespace also trimmed by Rust). -/
def isTrimWs (c : Char) : Bool := c == ' ' || c == '\t' || c == '\n' || c == '\r'

/-- Rust `str::trim`. -/
def rustTrim (s : List Char) : List Char :=
  ((s.dropWhile isTrimWs).reverse.dropWhile isTrimWs).reverse

/-- Body of the `parse_int!` macro for an unsigned target type with
exclusive upper bound `bound`: trim, then case-sensitive `0x` / `0o` /
`0b` prefix detection (`strip_prefix`), otherwise decimal. -/
def parseUInt (bound : Nat) (s : Token) : Option Nat :=
  let s := rustTrim s
  if s.take 2 = ['0', 'x'] then fromStrRadixU 16 bound (s.drop 2)
  else if s.take 2 = ['0', 'o'] then fromStrRadixU 8 bound (s.drop 2)
  else if s.take 2 = ['0', 'b'] then fromStrRadixU 2 bound (s.drop 2)
  else fromStrRadixU 10 bound s

/-- Body of the `parse_int!` macro for a signed target type with bounds
`lo`/`hi`. -/
def parseSInt (lo hi : Int) (s : Token) : Option Int :=
  let s := rustTrim s
  if s.take 2 = ['0', 'x'] then fromStrRadixI 16 lo hi (s.drop 2)
  else if s.take 2 = ['0', 'o'] then fromStrRadixI 8 lo hi (s.drop 2)
  else if s.take 2 = ['0', 'b'] then fromStrRadixI 2 lo hi (s.drop 2)
  else fromStrRadixI 10 lo hi s

def parse_u8 (s : Token) : Option Nat := parseUInt (2 ^ 8) s
def parse_u16 (s : Token) : Option Nat := parseUInt (2 ^ 16) s
def parse_u32 (s : Token) : Option Nat := parseUInt (2 ^ 32) s
def parse_u64 (s : Token) : Option Nat := parseUInt (2 ^ 64) s
def parse_u128 (s : Token) : Option Nat := parseUInt (2 ^ 128) s

/-- `usize` on the 64-bit targets this crate is built for. -/
def parse_usize (s : Token) : Option Nat := parseUInt (2 ^ 64) s

def parse_i8 (s : Token) : Option Int := parseSInt (-(2 ^ 7)) (2 ^ 7 - 1) s
def parse_i16 (s : Token) : Option Int := parseSInt (-(2 ^ 15)) (2 ^ 15 - 1) s
def parse_i32 (s : Token) : Option Int := parseSInt (-(2 ^ 31)) (2 ^ 31 - 1) s
def parse_i64 (s : Token) : Option Int := parseSInt (-(2 ^ 63)) (2 ^ 63 - 1) s
def parse_i128 (s : Token) : Option Int := parseSInt (-(2 ^ 127)) (2 ^ 127 - 1) s
def parse_isize (s : Token) : Option Int := parseSInt (-(2 ^ 63)) (2 ^ 63 - 1) s

/-- `parse_bool`: accepts `1|true|True|TRUE` and `0|false|False|FALSE`. -/
def parse_bool (s : Token) : Option Bool :=
  if s = "1".toList ∨ s = "true".toList ∨ s = "True".toList ∨ s = "TRUE".toList then
    some true
  else if s = "0".toList ∨ s = "false".toList ∨ s = "False".toList ∨ s = "FALSE".toList then
    some false
  else none

/-- `parse_char`: the token must be exactly one Unicode scalar value. -/
def parse_char (s : Token) : Option Char :=
  match s with
  | [c] => some c
  | _ => none

/-- Outcome of the hex-string decoder.  `crash` marks a Rust panic: the
source slices `&s[i..i+2]` with byte indices, which panics when `i+2`
is not a character boundary. -/
inductive HexOut where
  | ok (bs : List Nat)
  | invalid
  | crash
deriving DecidableEq, Repr

/-- UTF-8 byte length of a string. -/
def byteLen (s : List Char) : Nat := (s.map Char.utf8Size).sum

/-- The pair loop of `parse_hexstr`: the source decodes the 2-byte slices
`&s[0..2], &s[2..4], …` in order with `u8::from_str_radix(_, 16)`; this
consumes the same slices from the front.  A slice whose end falls inside
a multi-byte character is a Rust panic (`crash`). -/
def hexBytes : List Char → HexOut
  | [] => .ok []
  | c1 :: rest =>
    if c1.utf8Size = 1 then
      match rest with
      | [] => .crash
      | c2 :: rest2 =>
        if c2.utf8Size = 1 then
          match fromStrRadixU 16 256 [c1, c2] with
          | some b =>
            match hexBytes rest2 with
            | .ok bs => .ok (b :: bs)
            | r => r
          | none => .invalid
        else .crash
    else if c1.utf8Size = 2 then
      -- The 2-byte slice is exactly this character; it is never a pair of
      -- hex digits, and `from_str_radix` rejects it.
      match fromStrRadixU 16 256 [c1] with
      | some b =>
        match hexBytes rest with
        | .ok bs => .ok (b :: bs)
        | r => r
      | none => .invalid
    else .crash

/-- `parse_hexstr` (source lines 679-689): byte length must be even and
non-zero and the decoded length at most `maxHex` (`MAX_HEXSTR_LEN`);
then the 2-byte slices are decoded in order. -/
def parse_hexstr (maxHex : Nat) (s : Token) : HexOut :=
  if byteLen s % 2 ≠ 0 ∨ s = [] ∨ byteLen s / 2 > maxHex then .invalid
  else hexBytes s

/-- The recognized type codes of the descriptor language: the match arms
shared by the counter in `define_commands_impl_`, the `__parse_spec_*`
generator and the wrapper generator.  The character `v` and unrecognized
characters produce no parse statement and have no code. -/
inductive TCode where
  | tU8 | tU16 | tU32 | tU64 | tU128
  | tI8 | tI16 | tI32 | tI64 | tI128
  | tUsize | tIsize
  | tF32 | tF64
  | tBool | tChar | tStr | tHex
deriving DecidableEq, Repr

/-- Descriptor character to type code (`B W D Q X / b w d q x / Z z /
f F / t c s h`); `v` and anything else: none. -/
def codeOfChar : Char → Option TCode
  | 'B' => some .tU8
  | 'W' => some .tU16
  | 'D' => some .tU32
  | 'Q' => some .tU64
  | 'X' => some .tU128
  | 'b' => some .tI8
  | 'w' => some .tI16
  | 'd' => some .tI32
  | 'q' => some .tI64
  | 'x' => some .tI128
  | 'Z' => some .tUsize
  | 'z' => some .tIsize
  | 'f' => some .tF32
  | 'F' => some .tF64
  | 't' => some .tBool
  | 'c' => some .tChar
  | 's' => some .tStr
  | 'h' => some .tHex
  | _ => none

/-- The `f32`/`f64` fields of the dispatcher call Rust's float `FromStr`,
whose IEEE-754 semantics is outside this embedding; the development is
parameterized by an arbitrary float carrier and parser, so every theorem
below holds for every float semantics. -/
structure FloatModel where
  F32 : Type
  F64 : Type
  def32 : F32
  def64 : F64
  parse32 : Token → Option F32
  parse64 : Token → Option F64

/-- A concrete instantiation used by the closed witnesses. -/
def trivialFloat : FloatModel :=
  ⟨Unit, Unit, (), (), fun _ => some (), fun _ => some ()⟩

/-- The Rust value type stored for each type code (unsigned integers as
`Nat`, signed as `Int`, with the range enforcement in the parsers). -/
def ValOf (FM : FloatModel) : TCode → Type
  | .tU8 => Nat
  | .tU16 => Nat
  | .tU32 => Nat
  | .tU64 => Nat
  | .tU128 => Nat
  | .tI8 => Int
  | .tI16 => Int
  | .tI32 => Int
  | .tI64 => Int
  | .tI128 => Int
  | .tUsize => Nat
  | .tIsize => Int
  | .tF32 => FM.F32
  | .tF64 => FM.F64
  | .tBool => Bool
  | .tChar => Char
  | .tStr => Token
  | .tHex => List Nat

/-- Zero/default initialization of `CallCtx::new`. -/
def defaultVal (FM : FloatModel) : (tc : TCode) → ValOf FM tc
  | .tU8 => (0 : Nat)
  | .tU16 => (0 : Nat)
  | .tU32 => (0 : Nat)
  | .tU64 => (0 : Nat)
  | .tU128 => (0 : Nat)
  | .tI8 => (0 : Int)
  | .tI16 => (0 : Int)
  | .tI32 => (0 : Int)
  | .tI64 => (0 : Int)
  | .tI128 => (0 : Int)
  | .tUsize => (0 : Nat)
  | .tIsize => (0 : Int)
  | .tF32 => FM.def32
  | .tF64 => FM.def64
  | .tBool => false
  | .tChar => Char.ofNat 0
  | .tStr => []
  | .tHex => []

/-- Result of one `parse_*` call inside a generated `__parse_spec_*`
routine; `crash` is a Rust panic inside the callee (only the hex-string
decoder can panic). -/
inductive PrimOut (α : Type) where
  | ok (v : α)
  | err (e : DispatchError)
  | crash
deriving DecidableEq, Repr

/-- `ok_or` from the generated parse statements. -/
def ofOpt {α : Type} (o : Option α) (e : DispatchError) : PrimOut α :=
  match o with
  | some v => .ok v
  | none => .err e

/-- The per-code parse call of the generated `__parse_spec_*` statements
(`parse_u8(args[k]).ok_or(BadUnsigned)` and so on; `s` stores the raw
token, `h` uses `parse_hexstr`). -/
def parseArg (FM : FloatModel) (maxHex : Nat) : (tc : TCode) → Token → PrimOut (ValOf FM tc)
  | .tU8, t => ofOpt (parse_u8 t) .BadUnsigned
  | .tU16, t => ofOpt (parse_u16 t) .BadUnsigned
  | .tU32, t => ofOpt (parse_u32 t) .BadUnsigned
  | .tU64, t => ofOpt (parse_u64 t) .BadUnsigned
  | .tU128, t => ofOpt (parse_u128 t) .BadUnsigned
  | .tI8, t => ofOpt (parse_i8 t) .BadSigned
  | .tI16, t => ofOpt (parse_i16 t) .BadSigned
  | .tI32, t => ofOpt (parse_i32 t) .BadSigned
  | .tI64, t => ofOpt (parse_i64 t) .BadSigned
  | .tI128, t => ofOpt (parse_i128 t) .BadSigned
  | .tUsize, t => ofOpt (parse_usize t) .BadUnsigned
  | .tIsize, t => ofOpt (parse_isize t) .BadSigned
  | .tF32, t => ofOpt (FM.parse32 t) .BadFloat
  | .tF64, t => ofOpt (FM.parse64 t) .BadFloat
  | .tBool, t => ofOpt (parse_bool t) .BadBool
  | .tChar, t => ofOpt (parse_char t) .BadChar
  | .tStr, t => .ok t
  | .tHex, t =>
    match parse_hexstr maxHex t with
    | .ok bs => .ok bs
    | .invalid => .err .BadHexStr
    | .crash => .crash

/-- Argument storage (`CallCtx`): one fixed-length array per type code.
The source declares eighteen array fields sized by the `MAX_*` constants;
they are modelled uniformly as a code-indexed family of lists whose
lengths are those capacities. -/
structure CallCtx (FM : FloatModel) where
  arr : (tc : TCode) → List (ValOf FM tc)

/-- `CallCtx::new()`: every array filled with the default value, sized by
the capacities `caps`. -/
def CallCtx.new (FM : FloatModel) (caps : TCode → Nat) : CallCtx FM :=
  ⟨fun tc => List.replicate (caps tc) (defaultVal FM tc)⟩

/-- Write `v` at index `i` of the `tc0` array (`ctx.<arr>[idx] = v`).
Bounds are checked by the caller (`parseSpec`), mirroring the Rust
indexing panic. -/
def CallCtx.write {FM : FloatModel} (ctx : CallCtx FM) (tc0 : TCode) (i : Nat)
    (v : ValOf FM tc0) : CallCtx FM :=
  ⟨fun tc => if h : tc = tc0 then ((ctx.arr tc).set i (h.symm ▸ v)) else ctx.arr tc⟩

/-- Advance the per-type cursor (`idx_* += 1`). -/
def updCur (cur : TCode → Nat) (tc0 : TCode) : TCode → Nat :=
  fun tc => if tc = tc0 then cur tc0 + 1 else cur tc

/-- Outcome of a generated `__parse_spec_*` routine.  `crashToken` is the
Rust panic of `args[k]` with `k` past the slice; `crashStorage` the panic
of a per-type array write past its length; `crashHex` a panic inside
`parse_hexstr`. -/
inductive SpecOut (FM : FloatModel) where
  | ok (ctx : CallCtx FM)
  | err (e : DispatchError)
  | crashToken
  | crashStorage
  | crashHex

/-- The generated `__parse_spec_*` routine for a descriptor: walk the
descriptor characters in order; each recognized code consumes token
`args[k]`, parses it, writes the value at the type's cursor into the
type's array and advances both indices.  `v` and unrecognized characters
generate no statement. -/
def parseSpec (FM : FloatModel) (maxHex : Nat) :
    List Char → List Token → Nat → (TCode → Nat) → CallCtx FM → SpecOut FM
  | [], _, _, _, ctx => .ok ctx
  | ch :: rest, args, k, cur, ctx =>
    match codeOfChar ch with
    | none => parseSpec FM maxHex rest args k cur ctx
    | some tc =>
      match args.get? k with
      | none => .crashToken
      | some tok =>
        match parseArg FM maxHex tc tok with
        | .crash => .crashHex
        | .err e => .err e
        | .ok v =>
          if cur tc < (ctx.arr tc).length then
            parseSpec FM maxHex rest args (k + 1) (updCur cur tc) (ctx.write tc (cur tc) v)
          else .crashStorage

/-- One registered function: its textual name and its descriptor.  The
target function itself is irrelevant to dispatch outcomes (the wrapper
discards its return value), so entries carry no function. -/
structure Entry where
  name : Token
  spec : List Char
deriving DecidableEq, Repr

/-- The registry: the generated `ENTRIES` table. -/
abbrev Registry := List Entry

/-- `find_entry`: generated as a `match` over the name literals in table
order, so the first entry with the given name wins. -/
def findEntry (reg : Registry) (name : Token) : Option Entry :=
  reg.find? (fun e => decide (e.name = name))

/-- Count of a type code in one descriptor (the per-descriptor
`HostCounts` tally). -/
def specCount (tc : TCode) (spec : List Char) : Nat :=
  spec.countP (fun ch => decide (codeOfChar ch = some tc))

/-- The `MAX_*` capacity for a code: maximum of its per-descriptor counts
over the registry (the source folds over the deduplicated descriptors;
every such descriptor belongs to at least one entry, so the maximum over
entries is the same). -/
def maxCount (reg : Registry) (tc : TCode) : Nat :=
  reg.foldr (fun e acc => max (specCount tc e.spec) acc) 0

/-- Number of recognized codes in a descriptor. -/
def specNumCodes (spec : List Char) : Nat :=
  spec.countP (fun ch => (codeOfChar ch).isSome)

/-- A descriptor's contribution to `MAX_ARITY`: `0` for the descriptor
`"v"`, else the sum of the per-type counts (= recognized codes). -/
def specArityForMax (spec : List Char) : Nat :=
  if spec = ['v'] then 0 else specNumCodes spec

/-- `MAX_ARITY`. -/
def maxArity (reg : Registry) : Nat :=
  reg.foldr (fun e acc => max (specArityForMax e.spec) acc) 0

/-- An entry's required arity: `0` for descriptor `"v"`, else the
descriptor's character count cast `as u8` in the generator. -/
def entryArity (e : Entry) : Nat :=
  if e.spec = ['v'] then 0 else e.spec.length % 256

/-- Dispatch outcome.  `ok name` records that the wrapper of entry `name`
was invoked (the success path calls it exactly once and it returns
`Ok(())`); the `crash*` outcomes are Rust panics. -/
inductive DOut where
  | ok (invoked : Token)
  | err (e : DispatchError)
  | crashToken
  | crashStorage
  | crashHex
deriving DecidableEq, Repr

/-- `dispatch_with_buf` (source lines 759-776) with a caller buffer of
capacity `cap`: tokenize (keeping at most `cap` tokens), resolve the
name, compare `(token count - 1) as u16` with the entry arity, parse
into a fresh `CallCtx` sized by the registry maxima, then invoke. -/
def dispatch_with_buf (FM : FloatModel) (reg : Registry) (maxHex cap : Nat)
    (line : List Char) : DOut :=
  match (tokenizeCore line).take cap with
  | [] => .err .Empty
  | name :: args =>
    match findEntry reg name with
    | none => .err .UnknownFunction
    | some e =>
      if args.length % 65536 ≠ entryArity e then .err (.WrongArity (entryArity e))
      else
        match parseSpec FM maxHex e.spec args 0 (fun _ => 0) (CallCtx.new FM (maxCount reg)) with
        | .ok _ => .ok e.name
        | .err er => .err er
        | .crashToken => .crashToken
        | .crashStorage => .crashStorage
        | .crashHex => .crashHex

/-- `dispatch`: the internally-buffered entry point, whose token buffer
has capacity `2 + MAX_ARITY` (one defensive extra slot). -/
def dispatch (FM : FloatModel) (reg : Registry) (maxHex : Nat) (line : List Char) : DOut :=
  dispatch_with_buf FM reg maxHex (2 + maxArity reg) line

/-- A simple token: non-empty and free of separators and quotes, so that
the scanner reads it back verbatim from a line. -/
def SimpleTok (t : Token) : Prop :=
  t ≠ [] ∧ ∀ c ∈ t, isSpace c = false ∧ c ≠ '"'

instance : DecidablePred SimpleTok := fun t => by
  unfold SimpleTok; infer_instance

/-- Join tokens with single spaces (building the textual command line
`name tok1 tok2 …`). -/
def joinToks : List Token → List Char
  | [] => []
  | [t] => t
  | t :: ts => t ++ ' ' :: joinToks ts

/-- The codes of a descriptor, in order. -/
def specCodes (spec : List Char) : List TCode := spec.filterMap codeOfChar

/-- Success test on a parse outcome. -/
def PrimOut.isOk {α : Type} : PrimOut α → Bool
  | .ok _ => true
  | _ => false

/-- A well-formed descriptor: the void descriptor `"v"`, or only
recognized type-code characters (the configuration layer is responsible
for rejecting malformed descriptors, per the spec). -/
def WFSpec (spec : List Char) : Prop :=
  spec = ['v'] ∨ ∀ ch ∈ spec, (codeOfChar ch).isSome = true

instance : DecidablePred WFSpec := fun spec => by
  unfold WFSpec; infer_instance

/-- A well-formed registry: every descriptor well formed and of realistic
length (the generator stores arities `as u8`). -/
def WFReg (reg : Registry) : Prop :=
  ∀ e ∈ reg, WFSpec e.spec ∧ e.spec.length ≤ 255

instance : DecidablePred WFReg := fun reg => by
  unfold WFReg; infer_instance

/-! ### List scanning helpers -/

theorem takeWhile_of_all {α : Type} (p : α → Bool) :
    ∀ (l : List α), (∀ x ∈ l, p x = true) → l.takeWhile p = l := by
  intro l h
  induction l with
  | nil => rfl
  | cons a l ih =>
    rw [List.takeWhile_cons, if_pos (h a (List.mem_cons_self a l))]
    exact congrArg (a :: ·) (ih fun x hx => h x (List.mem_cons_of_mem a hx))

theorem takeWhile_append_of_all {α : Type} (p : α → Bool) :
    ∀ (l r : List α), (∀ x ∈ l, p x = true) →
      (l ++ r).takeWhile p = l ++ r.takeWhile p := by
  intro l r h
  induction l with
  | nil => rfl
  | cons a l ih =>
    rw [List.cons_append, List.takeWhile_cons, if_pos (h a (List.mem_cons_self a l))]
    exact congrArg (a :: ·) (ih fun x hx => h x (List.mem_cons_of_mem a hx))

theorem dropWhile_append_of_all {α : Type} (p : α → Bool) :
    ∀ (l r : List α), (∀ x ∈ l, p x = true) →
      (l ++ r).dropWhile p = r.dropWhile p := by
  intro l r h
  induction l with
  | nil => rfl
  | cons a l ih =>
    rw [List.cons_append, List.dropWhile_cons, if_pos (h a (List.mem_cons_self a l))]
    exact ih fun x hx => h x (List.mem_cons_of_mem a hx)

theorem length_dropWhile_le {α : Type} (p : α → Bool) :
    ∀ (l : List α), (l.dropWhile p).length ≤ l.length := by
  intro l
  induction l with
  | nil => exact Nat.le_refl 0
  | cons a l ih =>
    rw [List.dropWhile_cons]
    by_cases h : p a = true
    · rw [if_pos h]; exact Nat.le_trans ih (Nat.le_succ _)
    · rw [if_neg h]

theorem dropWhile_idem {α : Type} (p : α → Bool) (l : List α) :
    (l.dropWhile p).dropWhile p = l.dropWhile p := by
  induction l with
  | nil => rfl
  | cons a l ih =>
    rw [List.dropWhile_cons]
    by_cases h : p a = true
    · rw [if_pos h]; exact ih
    · rw [if_neg h, List.dropWhile_cons, if_neg h]

/-! ### Tokenizer structure lemmas -/

theorem dropWhile_head_false {α : Type} (p : α → Bool) :
    ∀ (l : List α) (c : α) (rest : List α), l.dropWhile p = c :: rest → p c = false := by
  intro l
  induction l with
  | nil => intro c rest h; exact absurd h (by simp)
  | cons a l ih =>
    intro c rest h
    rw [List.dropWhile_cons] at h
    by_cases ha : p a = true
    · rw [if_pos ha] at h; exact ih c rest h
    · rw [if_neg ha] at h
      cases h
      exact Bool.eq_false_iff.mpr ha

theorem tokenizeGo_nil : ∀ (f : Nat), tokenizeGo f [] = [] := by
  intro f
  cases f with
  | zero => rfl
  | succ f => rfl

/-- Fuel irrelevance: any fuel exceeding the line length computes the same
token sequence (every loop iteration consumes at least one character). -/
theorem tokenizeGo_congr :
    ∀ (n : Nat) (l : List Char) (f1 f2 : Nat), l.length ≤ n →
      l.length < f1 → l.length < f2 → tokenizeGo f1 l = tokenizeGo f2 l := by
  intro n
  induction n with
  | zero =>
    intro l f1 f2 hn h1 h2
    have hl : l = [] := List.length_eq_zero.mp (Nat.le_antisymm hn (Nat.zero_le _))
    subst hl
    rw [tokenizeGo_nil, tokenizeGo_nil]
  | succ n ih =>
    intro l f1 f2 hn h1 h2
    cases f1 with
    | zero => exact absurd h1 (Nat.not_lt_zero _)
    | succ a =>
      cases f2 with
      | zero => exact absurd h2 (Nat.not_lt_zero _)
      | succ b =>
        show tokenizeGo (a + 1) l = tokenizeGo (b + 1) l
        have hdrop : (l.dropWhile isSpace).length ≤ l.length := length_dropWhile_le isSpace l
        simp only [tokenizeGo]
        cases hd : l.dropWhile isSpace with
        | nil => rfl
        | cons c rest =>
          dsimp only
          have hrest : rest.length + 1 ≤ l.length := by
            have := hdrop; rw [hd] at this; simpa using this
          by_cases hq : c = '"'
          · rw [if_pos hq, if_pos hq]
            set X := ((rest.dropWhile (fun x => x != '"')).drop 1).dropWhile (fun x => !isSpace x) with hX
            have hx1 : X.length ≤ rest.length := by
              calc X.length ≤ ((rest.dropWhile (fun x => x != '"')).drop 1).length :=
                    length_dropWhile_le _ _
                _ ≤ (rest.dropWhile (fun x => x != '"')).length := by
                    rw [List.length_drop]; exact Nat.sub_le _ _
                _ ≤ rest.length := length_dropWhile_le _ _
            have := ih X a b (by omega) (by omega) (by omega)
            rw [this]
          · rw [if_neg hq, if_neg hq]
            have hcs : isSpace c = false := dropWhile_head_false isSpace l c rest hd
            have hX : (c :: rest).dropWhile (fun x => !isSpace x)
                = rest.dropWhile (fun x => !isSpace x) := by
              rw [List.dropWhile_cons, if_pos (by rw [hcs]; rfl)]
            rw [hX]
            have hx1 : (rest.dropWhile (fun x => !isSpace x)).length ≤ rest.length :=
              length_dropWhile_le _ _
            have := ih (rest.dropWhile (fun x => !isSpace x)) a b (by omega) (by omega) (by omega)
            rw [this]

/-- Any sufficient fuel computes `tokenizeCore`. -/
theorem tokenizeGo_eq_core (f : Nat) (l : List Char) (h : l.length < f) :
    tokenizeGo f l = tokenizeCore l :=
  tokenizeGo_congr l.length l f (l.length + 1) (Nat.le_refl _) h (Nat.lt_succ_self _)

/-- The scanner first skips leading separators, so prepending the input
with its own space-prefix removal changes nothing. -/
theorem tokenizeGo_dropWhile (f : Nat) (l : List Char) :
    tokenizeGo (f + 1) l = tokenizeGo (f + 1) (l.dropWhile isSpace) := by
  simp only [tokenizeGo, dropWhile_idem]

/-- Removing the space-prefix of a line does not change its tokens. -/
theorem tokenizeCore_dropWhile (l : List Char) :
    tokenizeCore (l.dropWhile isSpace) = tokenizeCore l := by
  have h1 : tokenizeCore l = tokenizeGo (l.length + 1) (l.dropWhile isSpace) :=
    tokenizeGo_dropWhile l.length l
  rw [h1]
  exact tokenizeGo_congr (l.dropWhile isSpace).length _ _ _ (Nat.le_refl _)
    (Nat.lt_succ_self _) (Nat.lt_succ_of_le (length_dropWhile_le isSpace l))

/-- Skipping one leading separator. -/
theorem tokenizeCore_cons_space (c : Char) (l : List Char) (hc : isSpace c = true) :
    tokenizeCore (c :: l) = tokenizeCore l := by
  have h1 : (c :: l).dropWhile isSpace = l.dropWhile isSpace := by
    rw [List.dropWhile_cons, if_pos hc]
  rw [← tokenizeCore_dropWhile (c :: l), h1, tokenizeCore_dropWhile l]

/-- One scanner iteration over an unquoted simple token followed by
nothing or by a separator. -/
theorem tokenizeGo_unquoted (f : Nat) (t : Token) (rest : List Char) (ht : SimpleTok t)
    (hr : rest = [] ∨ ∃ c r2, rest = c :: r2 ∧ isSpace c = true) :
    tokenizeGo (f + 1) (t ++ rest) = t :: tokenizeGo f rest := by
  obtain ⟨hne, hch⟩ := ht
  cases t with
  | nil => exact absurd rfl hne
  | cons c t' =>
  have hcs : isSpace c = false := (hch c (List.mem_cons_self c t')).1
  have hcq : c ≠ '"' := (hch c (List.mem_cons_self c t')).2
  simp only [tokenizeGo]
  have hdw : ((c :: t') ++ rest).dropWhile isSpace = c :: (t' ++ rest) := by
    rw [List.cons_append, List.dropWhile_cons, if_neg (by rw [hcs]; exact Bool.false_ne_true)]
  rw [hdw]
  dsimp only
  rw [if_neg hcq]
  have hall : ∀ x ∈ (c :: t'), (fun x => !isSpace x) x = true := by
    intro x hx; show (!isSpace x) = true; rw [(hch x hx).1]; rfl
  have htail : rest.takeWhile (fun x => !isSpace x) = [] ∧
      rest.dropWhile (fun x => !isSpace x) = rest := by
    rcases hr with h | ⟨c2, r2, h, hsp⟩
    · subst h; exact ⟨rfl, rfl⟩
    · subst h
      constructor
      · rw [List.takeWhile_cons, if_neg (by rw [hsp]; exact Bool.false_ne_true)]
      · rw [List.dropWhile_cons, if_neg (by rw [hsp]; exact Bool.false_ne_true)]
  have htake : (c :: (t' ++ rest)).takeWhile (fun x => !isSpace x) = c :: t' := by
    rw [show c :: (t' ++ rest) = (c :: t') ++ rest from rfl,
      takeWhile_append_of_all _ _ _ hall, htail.1, List.append_nil]
  have hdrop : (c :: (t' ++ rest)).dropWhile (fun x => !isSpace x) = rest := by
    rw [show c :: (t' ++ rest) = (c :: t') ++ rest from rfl,
      dropWhile_append_of_all _ _ _ hall, htail.2]
  rw [htake, hdrop]

/-- One scanner iteration over a quoted token: the content between the
quotes is emitted; the closing quote and the whole non-space run
immediately following it are consumed without appearing in any token. -/
theorem tokenizeGo_quoted (f : Nat) (content garbage rest : List Char)
    (hc : ∀ ch ∈ content, ch ≠ '"')
    (hg : ∀ ch ∈ garbage, isSpace ch = false)
    (hr : rest = [] ∨ ∃ c r2, rest = c :: r2 ∧ isSpace c = true) :
    tokenizeGo (f + 1) (('"' :: content) ++ ('"' :: garbage) ++ rest)
      = content :: tokenizeGo f rest := by
  have hline : ('"' :: content) ++ ('"' :: garbage) ++ rest
      = '"' :: (content ++ '"' :: (garbage ++ rest)) := by
    simp
  rw [hline]
  simp only [tokenizeGo]
  have hdw : ('"' :: (content ++ '"' :: (garbage ++ rest))).dropWhile isSpace
      = '"' :: (content ++ '"' :: (garbage ++ rest)) := by
    rw [List.dropWhile_cons, if_neg (by decide)]
  rw [hdw]
  dsimp only
  rw [if_pos rfl]
  have hallc : ∀ x ∈ content, (fun x => x != '"') x = true := by
    intro x hx
    simpa using hc x hx
  have htake : (content ++ '"' :: (garbage ++ rest)).takeWhile (fun x => x != '"')
      = content := by
    rw [takeWhile_append_of_all _ _ _ hallc, List.takeWhile_cons,
      if_neg (by decide), List.append_nil]
  have hdrop : (content ++ '"' :: (garbage ++ rest)).dropWhile (fun x => x != '"')
      = '"' :: (garbage ++ rest) := by
    rw [dropWhile_append_of_all _ _ _ hallc, List.dropWhile_cons,
      if_neg (by decide)]
  have hgarb : (garbage ++ rest).dropWhile (fun x => !isSpace x) = rest := by
    rw [dropWhile_append_of_all _ _ _
      (by intro x hx; show (!isSpace x) = true; rw [hg x hx]; rfl)]
    rcases hr with h | ⟨c2, r2, h, hsp⟩
    · subst h; rfl
    · subst h
      rw [List.dropWhile_cons, if_neg (by rw [hsp]; exact Bool.false_ne_true)]
  rw [htake, hdrop]
  simp only [List.drop_succ_cons, List.drop_zero]
  rw [hgarb]

/-- Scanner step for an unquoted token, at the `tokenizeCore` level. -/
theorem tokenizeCore_unquoted_step (t : Token) (rest : List Char) (ht : SimpleTok t)
    (hr : rest = [] ∨ ∃ c r2, rest = c :: r2 ∧ isSpace c = true) :
    tokenizeCore (t ++ rest) = t :: tokenizeCore rest := by
  have hlen : rest.length < (t ++ rest).length := by
    rw [List.length_append]
    have : t.length ≠ 0 := fun h => ht.1 (List.length_eq_zero.mp h)
    omega
  show tokenizeGo ((t ++ rest).length + 1) (t ++ rest) = t :: tokenizeCore rest
  rw [tokenizeGo_unquoted _ _ _ ht hr, tokenizeGo_eq_core _ _ hlen]

/-- C6: whenever a quoted token's closing quote is immediately followed
by a run of non-space characters, the tokenizer emits the quoted token as
exactly the content between the quotes and consumes the whole run while
closing the token, so those characters appear in no emitted token and
scanning resumes at the following separator. -/
theorem tokenizeCore_quoted_step (content garbage rest : List Char)
    (hc : ∀ ch ∈ content, ch ≠ '"')
    (hg : ∀ ch ∈ garbage, isSpace ch = false)
    (hr : rest = [] ∨ ∃ c r2, rest = c :: r2 ∧ isSpace c = true) :
    tokenizeCore (('"' :: content) ++ ('"' :: garbage) ++ rest)
      = content :: tokenizeCore rest := by
  have hlen : rest.length < (('"' :: content) ++ ('"' :: garbage) ++ rest).length := by
    simp [List.length_append]
    omega
  show tokenizeGo ((('"' :: content) ++ ('"' :: garbage) ++ rest).length + 1) _
      = content :: tokenizeCore rest
  rw [tokenizeGo_quoted _ _ _ _ hc hg hr, tokenizeGo_eq_core _ _ hlen]

/-- A line built by space-joining simple tokens scans back to exactly
those tokens. -/
theorem tokenizeCore_join :
    ∀ (ts : List Token), (∀ t ∈ ts, SimpleTok t) → tokenizeCore (joinToks ts) = ts := by
  intro ts
  induction ts with
  | nil => intro _; rfl
  | cons t ts ih =>
    intro h
    cases ts with
    | nil =>
      have := tokenizeCore_unquoted_step t [] (h t (List.mem_cons_self t []))
        (Or.inl rfl)
      simpa [joinToks] using this
    | cons t2 ts2 =>
      have hstep := tokenizeCore_unquoted_step t (' ' :: joinToks (t2 :: ts2))
        (h t (List.mem_cons_self t _))
        (Or.inr ⟨' ', joinToks (t2 :: ts2), rfl, rfl⟩)
      have hrest : tokenizeCore (' ' :: joinToks (t2 :: ts2))
          = tokenizeCore (joinToks (t2 :: ts2)) :=
        tokenizeCore_cons_space ' ' _ rfl
      have hjoin : joinToks (t :: t2 :: ts2) = t ++ ' ' :: joinToks (t2 :: ts2) := rfl
      rw [hjoin, hstep, hrest, ih (fun x hx => h x (List.mem_cons_of_mem t hx))]

/-! ### Registry well-formedness and counting lemmas -/

theorem specCount_cons (tc : TCode) (ch : Char) (rest : List Char) :
    specCount tc (ch :: rest)
      = specCount tc rest + if codeOfChar ch = some tc then 1 else 0 := by
  simp [specCount, List.countP_cons]

theorem le_foldr_max (g : Entry → Nat) :
    ∀ (reg : Registry) (e : Entry), e ∈ reg →
      g e ≤ reg.foldr (fun x acc => max (g x) acc) 0 := by
  intro reg
  induction reg with
  | nil => intro e he; cases he
  | cons a r ih =>
    intro e he
    rcases List.mem_cons.mp he with h | h
    · subst h; exact Nat.le_max_left _ _
    · exact Nat.le_trans (ih e h) (Nat.le_max_right _ _)

theorem foldr_max_le (g : Entry → Nat) (b : Nat) :
    ∀ (reg : Registry), (∀ x ∈ reg, g x ≤ b) →
      reg.foldr (fun x acc => max (g x) acc) 0 ≤ b := by
  intro reg
  induction reg with
  | nil => intro _; exact Nat.zero_le b
  | cons a r ih =>
    intro h
    exact Nat.max_le.mpr ⟨h a (List.mem_cons_self a r),
      ih fun x hx => h x (List.mem_cons_of_mem a hx)⟩

theorem specCount_le_maxCount (reg : Registry) (e : Entry) (he : e ∈ reg) (tc : TCode) :
    specCount tc e.spec ≤ maxCount reg tc :=
  le_foldr_max (fun x => specCount tc x.spec) reg e he

theorem specArityForMax_le_maxArity (reg : Registry) (e : Entry) (he : e ∈ reg) :
    specArityForMax e.spec ≤ maxArity reg :=
  le_foldr_max (fun x => specArityForMax x.spec) reg e he

theorem maxArity_le_255 (reg : Registry) (hwf : WFReg reg) : maxArity reg ≤ 255 := by
  apply foldr_max_le
  intro x hx
  calc specArityForMax x.spec ≤ x.spec.length := by
        unfold specArityForMax
        by_cases h : x.spec = ['v']
        · rw [if_pos h]; exact Nat.zero_le _
        · rw [if_neg h]; exact List.countP_le_length _
    _ ≤ 255 := (hwf x hx).2

theorem length_filterMap_eq_countP {α β : Type} (f : α → Option β) :
    ∀ (l : List α), (l.filterMap f).length = l.countP (fun a => (f a).isSome) := by
  intro l
  induction l with
  | nil => rfl
  | cons a l ih =>
    rw [List.filterMap_cons, List.countP_cons]
    cases hf : f a with
    | none => simpa [hf] using ih
    | some b => simp [hf, ih]

theorem specCodes_length_of_wf (spec : List Char) (h : WFSpec spec) :
    (specCodes spec).length = specArityForMax spec := by
  rcases h with h | h
  · subst h; rfl
  · by_cases hv : spec = ['v']
    · subst hv
      exact absurd (h 'v' (List.mem_cons_self _ _)) (by decide)
    · rw [specCodes, length_filterMap_eq_countP, specArityForMax, if_neg hv,
        specNumCodes]

theorem entryArity_of_wf (e : Entry) (h1 : WFSpec e.spec) (h2 : e.spec.length ≤ 255) :
    entryArity e = specArityForMax e.spec := by
  by_cases hv : e.spec = ['v']
  · rw [entryArity, specArityForMax, if_pos hv, if_pos hv]
  · rcases h1 with h | h
    · exact absurd h hv
    · rw [entryArity, specArityForMax, if_neg hv, if_neg hv,
        Nat.mod_eq_of_lt (by omega), specNumCodes]
      exact (List.countP_eq_length.mpr h).symm

/-! ### Parser storage safety and outcome classification -/

theorem write_length {FM : FloatModel} (ctx : CallCtx FM) (tc0 : TCode) (i : Nat)
    (v : ValOf FM tc0) (tc : TCode) :
    ((ctx.write tc0 i v).arr tc).length = (ctx.arr tc).length := by
  show (if h : tc = tc0 then ((ctx.arr tc).set i (h.symm ▸ v)) else ctx.arr tc).length
      = (ctx.arr tc).length
  by_cases h : tc = tc0
  · rw [dif_pos h, List.length_set]
  · rw [dif_neg h]

theorem updCur_self (cur : TCode → Nat) (tc0 : TCode) : updCur cur tc0 tc0 = cur tc0 + 1 := by
  unfold updCur; rw [if_pos rfl]

theorem updCur_other (cur : TCode → Nat) (tc0 tc : TCode) (h : tc ≠ tc0) :
    updCur cur tc0 tc = cur tc := by
  unfold updCur; rw [if_neg h]

/-- A parser never writes past the end of a per-type array as long as
each cursor plus the remaining count of its code fits the array. -/
theorem parseSpec_no_storage_crash (FM : FloatModel) (maxHex : Nat) :
    ∀ (spec : List Char) (args : List Token) (k : Nat) (cur : TCode → Nat) (ctx : CallCtx FM),
      (∀ tc, cur tc + specCount tc spec ≤ (ctx.arr tc).length) →
      parseSpec FM maxHex spec args k cur ctx ≠ .crashStorage := by
  intro spec
  induction spec with
  | nil =>
    intro args k cur ctx _ h
    simp [parseSpec] at h
  | cons ch rest ih =>
    intro args k cur ctx hcap
    simp only [parseSpec]
    cases hcode : codeOfChar ch with
    | none =>
      apply ih
      intro tc
      have := hcap tc
      rw [specCount_cons, hcode] at this
      simpa using this
    | some tc0 =>
      cases hget : args.get? k with
      | none => simp
      | some tok =>
        cases hp : parseArg FM maxHex tc0 tok with
        | crash => simp [hp]
        | err er => simp [hp]
        | ok v =>
          have h0 := hcap tc0
          rw [specCount_cons, hcode, if_pos rfl] at h0
          have hlt : cur tc0 < (ctx.arr tc0).length := by omega
          simp only [hp]
          rw [if_pos hlt]
          apply ih
          intro tc
          rw [write_length]
          by_cases htc : tc = tc0
          · subst htc
            rw [updCur_self]
            omega
          · rw [updCur_other _ _ _ htc]
            have := hcap tc
            rw [specCount_cons, hcode] at this
            by_cases h1 : some tc0 = some tc
            · exact absurd (Option.some.inj h1).symm htc
            · rw [if_neg h1] at this; omega

/-- Classification of a parser run when enough tokens are available and
the capacities suffice: the outcome is `ok` exactly when every positional
(code, token) pair parses, the first parse error is surfaced unchanged,
and a parse-time panic (hex decoder) surfaces as a crash. -/
theorem parseSpec_classify (FM : FloatModel) (maxHex : Nat) :
    ∀ (spec : List Char) (args : List Token) (k : Nat) (cur : TCode → Nat) (ctx : CallCtx FM),
      (∀ tc, cur tc + specCount tc spec ≤ (ctx.arr tc).length) →
      (k + (specCodes spec).length ≤ args.length) →
      (((∃ ctx2, parseSpec FM maxHex spec args k cur ctx = .ok ctx2) ↔
        ∀ pr ∈ (specCodes spec).zip (args.drop k),
          (parseArg FM maxHex pr.1 pr.2).isOk = true) ∧
       (∀ (pre : List (TCode × Token)) (tc : TCode) (t : Token)
          (post : List (TCode × Token)) (er : DispatchError),
        (specCodes spec).zip (args.drop k) = pre ++ (tc, t) :: post →
        (∀ pr ∈ pre, (parseArg FM maxHex pr.1 pr.2).isOk = true) →
        parseArg FM maxHex tc t = .err er →
        parseSpec FM maxHex spec args k cur ctx = .err er)) := by
  intro spec
  induction spec with
  | nil =>
    intro args k cur ctx _ _
    constructor
    · constructor
      · intro _ pr hpr
        simp [specCodes] at hpr
      · intro _; exact ⟨ctx, rfl⟩
    · intro pre tc t post er hzip _ _
      rw [show specCodes [] = [] from rfl] at hzip
      exact absurd hzip (by simp)
  | cons ch rest ih =>
    intro args k cur ctx hcap hk
    cases hcode : codeOfChar ch with
    | none =>
      have hcodes : specCodes (ch :: rest) = specCodes rest := by
        rw [specCodes, List.filterMap_cons, hcode]; rfl
      have hcap2 : ∀ tc, cur tc + specCount tc rest ≤ (ctx.arr tc).length := by
        intro tc
        have := hcap tc
        rw [specCount_cons, hcode] at this
        simpa using this
      have hk2 : k + (specCodes rest).length ≤ args.length := by
        rw [hcodes] at hk; exact hk
      have := ih args k cur ctx hcap2 hk2
      constructor
      · rw [hcodes]
        simpa only [parseSpec, hcode] using this.1
      · intro pre tc t post er hzip hpre hperr
        rw [hcodes] at hzip
        simpa only [parseSpec, hcode] using this.2 pre tc t post er hzip hpre hperr
    | some tc0 =>
      have hcodes : specCodes (ch :: rest) = tc0 :: specCodes rest := by
        rw [specCodes, List.filterMap_cons, hcode]; rfl
      have hklt : k < args.length := by
        rw [hcodes] at hk; simp at hk; omega
      have hdropk : args.drop k = args.get ⟨k, hklt⟩ :: args.drop (k + 1) :=
        List.drop_eq_get_cons hklt
      have hget : args.get? k = some (args.get ⟨k, hklt⟩) := List.get?_eq_get hklt
      set tok := args.get ⟨k, hklt⟩ with htok
      have hzip : (specCodes (ch :: rest)).zip (args.drop k)
          = (tc0, tok) :: (specCodes rest).zip (args.drop (k + 1)) := by
        rw [hcodes, hdropk]; rfl
      have hk2 : (k + 1) + (specCodes rest).length ≤ args.length := by
        rw [hcodes] at hk; simp at hk; omega
      cases hp : parseArg FM maxHex tc0 tok with
      | ok v =>
        have h0 := hcap tc0
        rw [specCount_cons, hcode, if_pos rfl] at h0
        have hlt : cur tc0 < (ctx.arr tc0).length := by omega
        have hcap2 : ∀ tc, updCur cur tc0 tc + specCount tc rest
            ≤ (((ctx.write tc0 (cur tc0) v)).arr tc).length := by
          intro tc
          rw [write_length]
          by_cases htc : tc = tc0
          · subst htc; rw [updCur_self]; omega
          · rw [updCur_other _ _ _ htc]
            have := hcap tc
            rw [specCount_cons, hcode] at this
            by_cases h1 : some tc0 = some tc
            · exact absurd (Option.some.inj h1).symm htc
            · rw [if_neg h1] at this; omega
        have hrec := ih args (k + 1) (updCur cur tc0) (ctx.write tc0 (cur tc0) v) hcap2 hk2
        have hstep : parseSpec FM maxHex (ch :: rest) args k cur ctx
            = parseSpec FM maxHex rest args (k + 1) (updCur cur tc0)
                (ctx.write tc0 (cur tc0) v) := by
          simp only [parseSpec, hcode, hget, hp, if_pos hlt]
        constructor
        · rw [hstep, hzip]
          constructor
          · intro hok pr hpr
            rcases List.mem_cons.mp hpr with h | h
            · subst h; rw [hp]; rfl
            · exact (hrec.1.mp hok) pr h
          · intro hall
            exact hrec.1.mpr fun pr hpr => hall pr (List.mem_cons_of_mem _ hpr)
        · intro pre tc t post er hzip2 hpre hperr
          rw [hzip] at hzip2
          cases pre with
          | nil =>
            simp at hzip2
            obtain ⟨⟨h1, h2⟩, _⟩ := hzip2
            subst h1; subst h2
            rw [hp] at hperr
            exact absurd hperr (by simp)
          | cons p0 pre2 =>
            rw [List.cons_append] at hzip2
            have h1 : p0 = (tc0, tok) := ((List.cons.injEq _ _ _ _).mp hzip2 |>.1).symm
            have h2 : (specCodes rest).zip (args.drop (k + 1)) = pre2 ++ (tc, t) :: post :=
              (List.cons.injEq _ _ _ _).mp hzip2 |>.2
            rw [hstep]
            exact hrec.2 pre2 tc t post er h2
              (fun pr hpr => hpre pr (List.mem_cons_of_mem _ hpr)) hperr
      | err er0 =>
        have hstep : parseSpec FM maxHex (ch :: rest) args k cur ctx = .err er0 := by
          simp only [parseSpec, hcode, hget, hp]
        constructor
        · rw [hstep, hzip]
          constructor
          · intro hok
            obtain ⟨ctx2, hctx⟩ := hok
            exact absurd hctx (by simp)
          · intro hall
            have := hall (tc0, tok) (List.mem_cons_self _ _)
            rw [hp] at this
            exact absurd this (by simp [PrimOut.isOk])
        · intro pre tc t post er hzip2 hpre hperr
          rw [hzip] at hzip2
          cases pre with
          | nil =>
            simp at hzip2
            obtain ⟨⟨h1, h2⟩, _⟩ := hzip2
            subst h1; subst h2
            rw [hp] at hperr
            have : er0 = er := by
              cases hperr; rfl
            rw [hstep, this]
          | cons p0 pre2 =>
            have h1 : p0 = (tc0, tok) := ((List.cons.injEq _ _ _ _).mp hzip2 |>.1).symm
            have := hpre p0 (List.mem_cons_self _ _)
            rw [h1, hp] at this
            exact absurd this (by simp [PrimOut.isOk])
      | crash =>
        have hstep : parseSpec FM maxHex (ch :: rest) args k cur ctx = .crashHex := by
          simp only [parseSpec, hcode, hget, hp]
        constructor
        · rw [hstep, hzip]
          constructor
          · intro hok
            obtain ⟨ctx2, hctx⟩ := hok
            exact absurd hctx (by simp)
          · intro hall
            have := hall (tc0, tok) (List.mem_cons_self _ _)
            rw [hp] at this
            exact absurd this (by simp [PrimOut.isOk])
        · intro pre tc t post er hzip2 hpre hperr
          rw [hzip] at hzip2
          cases pre with
          | nil =>
            simp at hzip2
            obtain ⟨⟨h1, h2⟩, _⟩ := hzip2
            subst h1; subst h2
            rw [hp] at hperr
            exact absurd hperr (by simp)
          | cons p0 pre2 =>
            have h1 : p0 = (tc0, tok) := ((List.cons.injEq _ _ _ _).mp hzip2 |>.1).symm
            have := hpre p0 (List.mem_cons_self _ _)
            rw [h1, hp] at this
            exact absurd this (by simp [PrimOut.isOk])

/-! ### Dispatch assembly lemmas -/

/-- On a joined line whose arity check passes, `dispatch` reduces to the
outcome of the entry's parser. -/
theorem dispatch_eq_parse_outcome (FM : FloatModel) (maxHex : Nat) (reg : Registry)
    (e : Entry) (args : List Token)
    (hwf : WFReg reg) (hfind : findEntry reg e.name = some e) (hname : SimpleTok e.name)
    (hargs : ∀ t ∈ args, SimpleTok t) (hlen : args.length = entryArity e) :
    dispatch FM reg maxHex (joinToks (e.name :: args))
      = match parseSpec FM maxHex e.spec args 0 (fun _ => 0)
          (CallCtx.new FM (maxCount reg)) with
        | .ok _ => .ok e.name
        | .err er => .err er
        | .crashToken => .crashToken
        | .crashStorage => .crashStorage
        | .crashHex => .crashHex := by
  have he : e ∈ reg := List.mem_of_find?_eq_some hfind
  have hwfe := hwf e he
  have hA : entryArity e = specArityForMax e.spec := entryArity_of_wf e hwfe.1 hwfe.2
  have hAle : entryArity e ≤ maxArity reg := by
    rw [hA]; exact specArityForMax_le_maxArity reg e he
  have h255 : maxArity reg ≤ 255 := maxArity_le_255 reg hwf
  have hjoin : tokenizeCore (joinToks (e.name :: args)) = e.name :: args := by
    apply tokenizeCore_join
    intro t ht
    rcases List.mem_cons.mp ht with h | h
    · subst h; exact hname
    · exact hargs t h
  have htake : (e.name :: args).take (2 + maxArity reg) = e.name :: args := by
    apply List.take_of_length_le
    simp only [List.length_cons]
    omega
  have hmod : args.length % 65536 = entryArity e := by
    rw [hlen]; exact Nat.mod_eq_of_lt (by omega)
  unfold dispatch dispatch_with_buf
  rw [hjoin, htake]
  dsimp only
  rw [hfind]
  dsimp only
  rw [if_neg (fun hcon => hcon hmod)]

/-- C2: for every registered function with required arity A and every
token count N different from A, the internally-buffered `dispatch` on
the function's name followed by N tokens returns `WrongArity{expected:A}`
— exactness in both directions, the defensive extra buffer slot making
too-many-tokens detectable even past the buffer bound. -/
theorem dispatch_arity_mismatch (FM : FloatModel) (maxHex : Nat) (reg : Registry)
    (e : Entry) (args : List Token)
    (hwf : WFReg reg) (hfind : findEntry reg e.name = some e) (hname : SimpleTok e.name)
    (hargs : ∀ t ∈ args, SimpleTok t) (hN : args.length ≠ entryArity e) :
    dispatch FM reg maxHex (joinToks (e.name :: args))
      = .err (.WrongArity (entryArity e)) := by
  have he : e ∈ reg := List.mem_of_find?_eq_some hfind
  have hwfe := hwf e he
  have hA : entryArity e = specArityForMax e.spec := entryArity_of_wf e hwfe.1 hwfe.2
  have hAle : entryArity e ≤ maxArity reg := by
    rw [hA]; exact specArityForMax_le_maxArity reg e he
  have h255 : maxArity reg ≤ 255 := maxArity_le_255 reg hwf
  have hjoin : tokenizeCore (joinToks (e.name :: args)) = e.name :: args := by
    apply tokenizeCore_join
    intro t ht
    rcases List.mem_cons.mp ht with h | h
    · subst h; exact hname
    · exact hargs t h
  have htake : (e.name :: args).take (2 + maxArity reg)
      = e.name :: args.take (1 + maxArity reg) := by
    rw [show 2 + maxArity reg = (1 + maxArity reg) + 1 by omega]
    exact List.take_succ_cons
  have hgot : (args.take (1 + maxArity reg)).length = min (1 + maxArity reg) args.length :=
    List.length_take _ _
  have hne : (args.take (1 + maxArity reg)).length % 65536 ≠ entryArity e := by
    rw [hgot, Nat.mod_eq_of_lt (by omega)]
    omega
  unfold dispatch dispatch_with_buf
  rw [hjoin, htake]
  dsimp only
  rw [hfind]
  dsimp only
  rw [if_pos hne]

/-- C1: for every registered function and every line of the form
`name tok1 … tokA` with exactly arity-many argument tokens, dispatch
succeeds — invoking the registered function exactly once, recorded by the
`ok` payload — if and only if every argument token parses under the
function's descriptor; and the first per-type parse failure aborts
dispatch with that specific error, the function not being invoked. -/
theorem dispatch_success_iff_all_args_parse (FM : FloatModel) (maxHex : Nat)
    (reg : Registry) (e : Entry) (args : List Token)
    (hwf : WFReg reg) (hfind : findEntry reg e.name = some e) (hname : SimpleTok e.name)
    (hargs : ∀ t ∈ args, SimpleTok t) (hlen : args.length = entryArity e) :
    (dispatch FM reg maxHex (joinToks (e.name :: args)) = .ok e.name ↔
      ∀ pr ∈ (specCodes e.spec).zip args, (parseArg FM maxHex pr.1 pr.2).isOk = true) ∧
    (∀ (pre : List (TCode × Token)) (tc : TCode) (t : Token) (post : List (TCode × Token))
        (er : DispatchError),
      (specCodes e.spec).zip args = pre ++ (tc, t) :: post →
      (∀ pr ∈ pre, (parseArg FM maxHex pr.1 pr.2).isOk = true) →
      parseArg FM maxHex tc t = .err er →
      dispatch FM reg maxHex (joinToks (e.name :: args)) = .err er) := by
  have he : e ∈ reg := List.mem_of_find?_eq_some hfind
  have hwfe := hwf e he
  have hA : entryArity e = specArityForMax e.spec := entryArity_of_wf e hwfe.1 hwfe.2
  have hD := dispatch_eq_parse_outcome FM maxHex reg e args hwf hfind hname hargs hlen
  have hcap : ∀ tc, (fun _ => 0) tc + specCount tc e.spec
      ≤ ((CallCtx.new FM (maxCount reg)).arr tc).length := by
    intro tc
    show 0 + specCount tc e.spec
        ≤ (List.replicate (maxCount reg tc) (defaultVal FM tc)).length
    rw [List.length_replicate, Nat.zero_add]
    exact specCount_le_maxCount reg e he tc
  have hk : 0 + (specCodes e.spec).length ≤ args.length := by
    rw [specCodes_length_of_wf _ hwfe.1, ← hA, ← hlen]; omega
  have hcls := parseSpec_classify FM maxHex e.spec args 0 (fun _ => 0)
    (CallCtx.new FM (maxCount reg)) hcap hk
  rw [List.drop_zero] at hcls
  constructor
  · rw [hD]
    cases hres : parseSpec FM maxHex e.spec args 0 (fun _ => 0)
        (CallCtx.new FM (maxCount reg)) with
    | ok ctx2 =>
      constructor
      · intro _; exact hcls.1.mp ⟨ctx2, hres⟩
      · intro _; rfl
    | err er =>
      constructor
      · intro h; exact absurd h (by simp)
      · intro hall
        obtain ⟨ctx2, hctx⟩ := hcls.1.mpr hall
        rw [hres] at hctx
        exact absurd hctx (by simp)
    | crashToken =>
      constructor
      · intro h; exact absurd h (by simp)
      · intro hall
        obtain ⟨ctx2, hctx⟩ := hcls.1.mpr hall
        rw [hres] at hctx
        exact absurd hctx (by simp)
    | crashStorage =>
      constructor
      · intro h; exact absurd h (by simp)
      · intro hall
        obtain ⟨ctx2, hctx⟩ := hcls.1.mpr hall
        rw [hres] at hctx
        exact absurd hctx (by simp)
    | crashHex =>
      constructor
      · intro h; exact absurd h (by simp)
      · intro hall
        obtain ⟨ctx2, hctx⟩ := hcls.1.mpr hall
        rw [hres] at hctx
        exact absurd hctx (by simp)
  · intro pre tc t post er hz hp hperr
    rw [hD, hcls.2 pre tc t post er hz hp hperr]

/-- Witness for C1: with the one-entry registry `{f : t}`, the line
`f 1` dispatches successfully, by the round-trip theorem. -/
theorem dispatch_success_iff_witness :
    dispatch trivialFloat [⟨"f".toList, "t".toList⟩] 32
        (joinToks ["f".toList, "1".toList]) = .ok "f".toList :=
  (dispatch_success_iff_all_args_parse trivialFloat 32 [⟨"f".toList, "t".toList⟩]
      ⟨"f".toList, "t".toList⟩ ["1".toList] (by decide) (by decide) (by decide)
      (by decide) (by decide)).1.mpr (by decide)

/-- Witness for C2: with the one-entry registry `{f : t}` (arity 1), the
line `f 1 9` yields `WrongArity{expected: 1}`, by the exactness
theorem. -/
theorem dispatch_arity_mismatch_witness :
    dispatch trivialFloat [⟨"f".toList, "t".toList⟩] 32
        (joinToks ["f".toList, "1".toList, "9".toList]) = .err (.WrongArity 1) :=
  dispatch_arity_mismatch trivialFloat 32 [⟨"f".toList, "t".toList⟩]
    ⟨"f".toList, "t".toList⟩ ["1".toList, "9".toList] (by decide) (by decide)
    (by decide) (by decide) (by decide)

/-- C9: for every registered descriptor, running its parser over any
token slice never writes a per-type storage array out of bounds, because
each array's capacity is the registry-wide maximum count of its type. -/
theorem parser_storage_writes_in_bounds (FM : FloatModel) (maxHex : Nat) (reg : Registry)
    (e : Entry) (he : e ∈ reg) (args : List Token) :
    parseSpec FM maxHex e.spec args 0 (fun _ => 0) (CallCtx.new FM (maxCount reg))
      ≠ .crashStorage := by
  apply parseSpec_no_storage_crash
  intro tc
  show 0 + specCount tc e.spec
      ≤ (List.replicate (maxCount reg tc) (defaultVal FM tc)).length
  rw [List.length_replicate, Nat.zero_add]
  exact specCount_le_maxCount reg e he tc

/-- Witness for C9 at a concrete registry, entry and token slice. -/
theorem parser_storage_writes_in_bounds_witness :
    parseSpec trivialFloat 32 "t".toList ["1".toList, "9".toList] 0 (fun _ => 0)
      (CallCtx.new trivialFloat (maxCount [⟨"f".toList, "t".toList⟩]))
      ≠ .crashStorage :=
  parser_storage_writes_in_bounds trivialFloat 32 [⟨"f".toList, "t".toList⟩]
    ⟨"f".toList, "t".toList⟩ (by decide) ["1".toList, "9".toList]

/-- C3: for an unsigned 8-bit field, `255`, `0xFF`, `0o377` and
`0b11111111` all parse to 255, while `256` and `-1` fail with
`BadUnsigned`. -/
theorem u8_radix_parsing :
    parseArg trivialFloat 32 .tU8 "255".toList = .ok (255 : Nat) ∧
    parseArg trivialFloat 32 .tU8 "0xFF".toList = .ok (255 : Nat) ∧
    parseArg trivialFloat 32 .tU8 "0o377".toList = .ok (255 : Nat) ∧
    parseArg trivialFloat 32 .tU8 "0b11111111".toList = .ok (255 : Nat) ∧
    parseArg trivialFloat 32 .tU8 "256".toList = .err .BadUnsigned ∧
    parseArg trivialFloat 32 .tU8 "-1".toList = .err .BadUnsigned :=
  ⟨rfl, rfl, rfl, rfl, rfl, rfl⟩

/-- Counterexample to C4: `strip_prefix` is case-sensitive, so `0XFF`
is not treated as a hexadecimal prefix: it fails to parse while `0xff`
parses to 255. -/
theorem uppercase_prefix_not_recognized :
    parse_u8 "0XFF".toList = none ∧ parse_u8 "0xff".toList = some 255 ∧
    parseArg trivialFloat 32 .tU8 "0XFF".toList = .err .BadUnsigned :=
  ⟨rfl, rfl, rfl⟩

/-- C4 amended: only the lowercase radix prefixes `0x`/`0o`/`0b` are
recognized (hex digits in either case); uppercase-prefixed tokens fall
through to decimal parsing and fail. -/
theorem radix_prefix_lowercase_only :
    parse_u8 "0xff".toList = some 255 ∧ parse_u8 "0xFF".toList = some 255 ∧
    parse_u8 "0o377".toList = some 255 ∧ parse_u8 "0b11".toList = some 3 ∧
    parseArg trivialFloat 32 .tU8 "0XFF".toList = .err .BadUnsigned ∧
    parseArg trivialFloat 32 .tU8 "0O377".toList = .err .BadUnsigned ∧
    parseArg trivialFloat 32 .tU8 "0B11".toList = .err .BadUnsigned :=
  ⟨rfl, rfl, rfl, rfl, rfl, rfl, rfl⟩

/-- C5: the tokenizer splits `cmd "a b" c` into three tokens honoring the
quotes, reports `Empty` on blank and all-whitespace lines, and maps `""`
to exactly one zero-length token. -/
theorem tokenize_quoting_examples :
    tokenize "cmd \"a b\" c".toList 10 = .ok ["cmd".toList, "a b".toList, "c".toList] ∧
    tokenize "".toList 10 = .error .Empty ∧
    tokenize "   ".toList 10 = .error .Empty ∧
    tokenize "\"\"".toList 10 = .ok [[]] :=
  ⟨rfl, rfl, rfl, rfl⟩

/-- Witness for C6: in `"ab"xy cd` the quoted token is emitted as `ab`,
the garbage `xy` stuck to the closing quote appears in no token, and
scanning resumes with `cd`. -/
theorem quoted_trailing_garbage_witness :
    tokenizeCore "\"ab\"xy cd".toList = ["ab".toList, "cd".toList] := by
  have h := tokenizeCore_quoted_step "ab".toList "xy".toList " cd".toList
    (by decide) (by decide) (Or.inr ⟨' ', "cd".toList, rfl, rfl⟩)
  rw [show "\"ab\"xy cd".toList
      = ('"' :: "ab".toList) ++ ('"' :: "xy".toList) ++ " cd".toList from rfl]
  rw [h]
  rfl

/-- C7 evidence: `AABBCC` decodes to `[0xAA, 0xBB, 0xCC]`; odd-length,
empty, non-hex and over-length inputs yield the hex error; but the
even-byte-length token `€A` makes the decoder slice the string at byte 2,
inside the three-byte character `€` — a Rust panic, not `BadHexStr`. -/
theorem hexstr_decode_and_crash :
    parse_hexstr 32 "AABBCC".toList = .ok [170, 187, 204] ∧
    parse_hexstr 32 "AAB".toList = .invalid ∧
    parse_hexstr 32 "".toList = .invalid ∧
    parse_hexstr 32 "GGHHII".toList = .invalid ∧
    parse_hexstr 2 "AABBCC".toList = .invalid ∧
    parse_hexstr 32 "€A".toList = .crash :=
  ⟨rfl, rfl, rfl, rfl, rfl, rfl⟩

/-- C8: boolean fields accept exactly `true/True/TRUE/1` (as true) and
`false/False/FALSE/0` (as false); every other token fails with
`BadBool`. -/
theorem bool_parsing_exhaustive :
    (parseArg trivialFloat 32 .tBool "true".toList = .ok true ∧
     parseArg trivialFloat 32 .tBool "True".toList = .ok true ∧
     parseArg trivialFloat 32 .tBool "TRUE".toList = .ok true ∧
     parseArg trivialFloat 32 .tBool "1".toList = .ok true ∧
     parseArg trivialFloat 32 .tBool "false".toList = .ok false ∧
     parseArg trivialFloat 32 .tBool "False".toList = .ok false ∧
     parseArg trivialFloat 32 .tBool "FALSE".toList = .ok false ∧
     parseArg trivialFloat 32 .tBool "0".toList = .ok false) ∧
    ∀ t : Token,
      t ∉ ["true".toList, "True".toList, "TRUE".toList, "1".toList,
           "false".toList, "False".toList, "FALSE".toList, "0".toList] →
      parseArg trivialFloat 32 .tBool t = .err .BadBool := by
  constructor
  · exact ⟨rfl, rfl, rfl, rfl, rfl, rfl, rfl, rfl⟩
  · intro t ht
    simp only [List.mem_cons, List.not_mem_nil, or_false, not_or] at ht
    obtain ⟨h1, h2, h3, h4, h5, h6, h7, h8⟩ := ht
    show ofOpt (parse_bool t) .BadBool = .err .BadBool
    have hb : parse_bool t = none := by
      unfold parse_bool
      rw [if_neg, if_neg]
      · intro hcon
        rcases hcon with h | h | h | h
        · exact h8 h
        · exact h5 h
        · exact h6 h
        · exact h7 h
      · intro hcon
        rcases hcon with h | h | h | h
        · exact h4 h
        · exact h1 h
        · exact h2 h
        · exact h3 h
    rw [hb]
    rfl

/-- Witness for C8: `yes` is none of the accepted spellings and fails
with `BadBool`. -/
theorem bool_parsing_witness :
    parseArg trivialFloat 32 .tBool "yes".toList = .err .BadBool :=
  bool_parsing_exhaustive.2 "yes".toList (by decide)

/-- C10: with a caller-supplied token buffer of capacity `1 + arity`, a
line carrying one extra argument token still dispatches successfully:
the tokenizer silently drops the surplus token, the arity check sees an
exact match, and the function is invoked. -/
theorem dispatch_small_buffer_accepts_extra_args :
    (tokenizeCore "f 1 9".toList).length = 3 ∧
    entryArity ⟨"f".toList, "t".toList⟩ = 1 ∧
    dispatch_with_buf trivialFloat [⟨"f".toList, "t".toList⟩] 32 2 "f 1 9".toList
      = .ok "f".toList := by
  exact ⟨rfl, rfl, by decide⟩
end UShell
